import Mathlib

/-!
Shallow embedding of `model/optimizer.py` from the Workforce-Scheduling-Optimizer
repository, together with theorems settling the specification claims.

Modelling conventions:
* pandas timestamps are modelled as integers (seconds); the ISO-week computation
  `ts.isocalendar()[1]` is abstracted as an arbitrary function `isoWeek : ℤ → ℕ`
  (every theorem holds for any such function).
* Python floats are modelled as rationals `ℚ`; every value manipulated by the
  program (hours, productivities, caps) is exact at this scale.
* Python dicts (`emp_book`, `assigned_hours_by_week`) are modelled as
  insertion-ordered association lists: assignment to an existing key replaces
  it in place, assignment to a fresh key appends at the end, and iteration is
  list order - exactly CPython's guaranteed dict semantics.
* Python's `list.sort` and the pandas sorts are stable; they are modelled by
  `List.insertionSort`, which is stable, so it computes the same list.
  (`df_d.sort_values("timestamp")` uses an unstable sort in pandas; no claim
  depends on the order of demand rows with equal timestamps.)
-/

namespace WFS

/-- One row of the demand table after `pd.to_datetime`: `timestamp` (seconds),
`hour` (0-23 column, read independently of the timestamp), `demand`. -/
structure DemandRow where
  ts : ℤ
  hour : ℕ
  demand : ℕ
deriving DecidableEq, Repr

/-- One row of the employees table, with all optional columns present
(the source fills `base_productivity = 1.0` when the column is absent). -/
structure EmployeeRow where
  employee_id : ℕ
  skill_level : ℤ
  max_week_hours : ℚ
  preferred_shift : String
  base_productivity : ℚ
deriving DecidableEq, Repr

/-- The demand input: `hasTimestamp` records whether the `timestamp` column is
present (the source checks `'timestamp' in df_d.columns`). -/
structure DemandInput where
  hasTimestamp : Bool
  rows : List DemandRow
deriving DecidableEq, Repr

/-- The optional configuration object (`config` parameter).  The source accepts
it but never reads it. -/
structure Config where
  max_shift_hours : Option ℚ
  min_rest_hours_between_shifts : Option ℚ
  max_week_hours : Option ℚ
  shift_templates : List String
  role_requirements : List String
deriving DecidableEq, Repr

/-- `PREF_SHIFT_WINDOWS` membership test: `hour in PREF_SHIFT_WINDOWS[pref]`.
`morning = range(7,14)`, `afternoon = range(13,20)`, `evening = range(16,23)`,
`night = range(0,7) + range(23,24)`, `flex = range(0,24)`. -/
def prefWindowMem (pref : String) (hour : ℕ) : Bool :=
  if pref = "morning" then decide (7 ≤ hour ∧ hour < 14)
  else if pref = "afternoon" then decide (13 ≤ hour ∧ hour < 20)
  else if pref = "evening" then decide (16 ≤ hour ∧ hour < 23)
  else if pref = "night" then decide (hour < 7 ∨ hour = 23)
  else if pref = "flex" then decide (hour < 24)
  else false

/-- `_hour_pref_score`: 1 if the hour is in the preferred window, else 0
(0 as well for an unrecognized preference tag). -/
def hourPrefScore (pref : String) (hour : ℕ) : ℕ :=
  if prefWindowMem pref hour then 1 else 0

/-- The per-employee bookkeeping entry of `emp_book`. -/
structure EmpInfo where
  skill : ℤ
  max_week_hours : ℚ
  preferred_shift : String
  base_productivity : ℚ
  assigned_hours_by_week : List (ℕ × ℚ)
  last_assigned_ts : Option ℤ
deriving DecidableEq, Repr, Inhabited

/-- `emp_book`: an insertion-ordered map from employee id to bookkeeping. -/
abbrev Book := List (ℕ × EmpInfo)

/-- `info['assigned_hours_by_week'].get(week, 0.0)`. -/
def lookupWeek (m : List (ℕ × ℚ)) (w : ℕ) : ℚ :=
  match m.find? (fun p => p.1 == w) with
  | some p => p.2
  | none => 0

/-- `d[week] = v` on the week-hours dict: replace in place or append. -/
def setWeek (m : List (ℕ × ℚ)) (w : ℕ) (v : ℚ) : List (ℕ × ℚ) :=
  match m with
  | [] => [(w, v)]
  | p :: rest => if p.1 == w then (w, v) :: rest else p :: setWeek rest w v

/-- The fresh bookkeeping entry built from a roster row. -/
def mkInfo (r : EmployeeRow) : EmpInfo :=
  { skill := r.skill_level
    max_week_hours := r.max_week_hours
    preferred_shift := r.preferred_shift
    base_productivity := r.base_productivity
    assigned_hours_by_week := []
    last_assigned_ts := none }

/-- `emp_book[id] = info`: dict assignment (replace in place or append). -/
def upsert (b : Book) (id : ℕ) (info : EmpInfo) : Book :=
  match b with
  | [] => [(id, info)]
  | p :: rest => if p.1 == id then (id, info) :: rest else p :: upsert rest id info

/-- Building `emp_book` from the roster rows (`for _, row in df_e.iterrows()`). -/
def initBook (rows : List EmployeeRow) : Book :=
  rows.foldl (fun b r => upsert b r.employee_id (mkInfo r)) []

/-- `emp_book[id]` lookup. -/
def bookFind (b : Book) (id : ℕ) : Option EmpInfo :=
  (b.find? (fun p => p.1 == id)).map Prod.snd

/-- Weekly-cap condition: `assigned_this_week < max_week_hours`
(the candidate loop skips the employee when `assigned_this_week >= max_week_hours`). -/
def weeklyCapOk (info : EmpInfo) (w : ℕ) : Bool :=
  decide (lookupWeek info.assigned_hours_by_week w < info.max_week_hours)

/-- Rest condition: no prior assignment, or at least 8 hours (28800 s) since it
(the loop skips when `delta < 8` with `delta` in hours). -/
def restOk (info : EmpInfo) (ts : ℤ) : Bool :=
  match info.last_assigned_ts with
  | none => true
  | some t => decide ((28800 : ℤ) ≤ ts - t)

/-- A candidate tuple `(emp_id, pref_score, skill, assigned_this_week,
base_productivity)`.  The extra `idx` field records the position in `emp_book`
at build time; in the source this information is implicit in list order (it is
what Python's stable sort preserves on ties). -/
structure Candidate where
  emp_id : ℕ
  pref_score : ℕ
  skill : ℤ
  assigned_this_week : ℚ
  prod : ℚ
  idx : ℕ
deriving DecidableEq, Repr

/-- The candidate tuple appended for an eligible employee. -/
def mkCand (id : ℕ) (info : EmpInfo) (hour w i : ℕ) : Candidate :=
  { emp_id := id
    pref_score := hourPrefScore info.preferred_shift hour
    skill := info.skill
    assigned_this_week := lookupWeek info.assigned_hours_by_week w
    prod := info.base_productivity
    idx := i }

/-- The candidate-building loop over `emp_book.items()`, filtered by an
eligibility test; `i` is the current book position. -/
def buildCands (elig : EmpInfo → Bool) (hour w : ℕ) : Book → ℕ → List Candidate
  | [], _ => []
  | p :: rest, i =>
    if elig p.2 then mkCand p.1 p.2 hour w i :: buildCands elig hour w rest (i + 1)
    else buildCands elig hour w rest (i + 1)

/-- First (strict) candidate pass: weekly cap and rest gap. -/
def strictCands (b : Book) (ts : ℤ) (hour w : ℕ) : List Candidate :=
  buildCands (fun info => weeklyCapOk info w && restOk info ts) hour w b 0

/-- Relaxed candidate pass: weekly cap only. -/
def relaxedCands (b : Book) (hour w : ℕ) : List Candidate :=
  buildCands (fun info => weeklyCapOk info w) hour w b 0

/-- The sort key `(-pref_score, -skill, assigned_this_week)`, compared
lexicographically as in `candidates.sort(key=lambda x: (-x[1], -x[2], x[3]))`. -/
def key3 (c : Candidate) : ℤ ×ₗ (ℤ ×ₗ ℚ) :=
  toLex (-(c.pref_score : ℤ), toLex (-c.skill, c.assigned_this_week))

/-- The (non-strict) comparison used by the stable sort. -/
def candLE (a b : Candidate) : Prop := key3 a ≤ key3 b

instance : DecidableRel candLE := fun a b =>
  inferInstanceAs (Decidable (key3 a ≤ key3 b))

/-- `candidates.sort(...)`: Python's sort is stable, so it computes the same
list as stable insertion sort under the same key comparison. -/
def sortCands (l : List Candidate) : List Candidate := l.insertionSort candLE

/-- `avg_capacity = df_e['base_productivity'].mean() if len(df_e)>0 else 1.0`.
Computed from the full employees table (duplicate ids included). -/
def avgCapacity (rows : List EmployeeRow) : ℚ :=
  if rows = [] then 1 else (rows.map (fun r => r.base_productivity)).sum / rows.length

/-- `needed = math.ceil(demand / max(0.1, avg_capacity))`. -/
def neededFor (rows : List EmployeeRow) (demand : ℕ) : ℕ :=
  (Int.ceil ((demand : ℚ) / max (1 / 10) (avgCapacity rows))).toNat

/-- The candidate list actually used for a slot: the strict pass, discarded and
rebuilt relaxed when it is smaller than the required headcount. -/
def slotCandidates (rows : List EmployeeRow) (b : Book) (w : ℕ) (s : DemandRow) :
    List Candidate :=
  let strict := strictCands b s.ts s.hour w
  if strict.length < neededFor rows s.demand then relaxedCands b s.hour w else strict

/-- `chosen = candidates[:needed]` after the sort. -/
def slotChosen (rows : List EmployeeRow) (b : Book) (w : ℕ) (s : DemandRow) :
    List Candidate :=
  (sortCands (slotCandidates rows b w s)).take (neededFor rows s.demand)

/-- One row of the assignment log (the `date` column, derived from the
timestamp, is omitted; no claim mentions it). -/
structure AssignmentRecord where
  employee_id : Option ℕ
  ts : ℤ
  hour : ℕ
  assigned_hours : ℚ
  week : ℕ
  preferred_shift_match : ℕ
  skill_level : ℤ
  base_productivity : ℚ
deriving DecidableEq, Repr

/-- The ledger mutation for one chosen employee: add 1.0 hour in the slot's
week and set `last_assigned_ts`. -/
def bump (ts : ℤ) (w : ℕ) (info : EmpInfo) : EmpInfo :=
  { info with
    assigned_hours_by_week :=
      setWeek info.assigned_hours_by_week w (lookupWeek info.assigned_hours_by_week w + 1)
    last_assigned_ts := some ts }

/-- `emp_book[emp_id]` update inside the commit loop. -/
def commitOne (b : Book) (ts : ℤ) (w : ℕ) (id : ℕ) : Book :=
  b.map (fun p => if p.1 == id then (p.1, bump ts w p.2) else p)

/-- The commit loop over the chosen candidates: mutate the book and append one
record per chosen employee, in order. -/
def commitChosen (b : Book) (ts : ℤ) (hour w : ℕ) :
    List Candidate → Book × List AssignmentRecord
  | [] => (b, [])
  | c :: rest =>
    let info := (bookFind b c.emp_id).getD default
    let rec1 : AssignmentRecord :=
      { employee_id := some c.emp_id
        ts := ts
        hour := hour
        assigned_hours := 1
        week := w
        preferred_shift_match := c.pref_score
        skill_level := info.skill
        base_productivity := info.base_productivity }
    let res := commitChosen (commitOne b ts w c.emp_id) ts hour w rest
    (res.1, rec1 :: res.2)

/-- The sentinel record appended when no candidate was chosen for a slot. -/
def sentinel (ts : ℤ) (hour w : ℕ) : AssignmentRecord :=
  { employee_id := none
    ts := ts
    hour := hour
    assigned_hours := 0
    week := w
    preferred_shift_match := 0
    skill_level := 0
    base_productivity := 0 }

/-- Processing of a single demand slot, returning the new book and the records
appended for this slot. -/
def slotOutput (isoWeek : ℤ → ℕ) (rows : List EmployeeRow) (b : Book) (s : DemandRow) :
    Book × List AssignmentRecord :=
  let w := isoWeek s.ts
  let chosen := slotChosen rows b w s
  let res := commitChosen b s.ts s.hour w chosen
  (res.1, if chosen.isEmpty then res.2 ++ [sentinel s.ts s.hour w] else res.2)

/-- The loop body over demand slots. -/
def processSlot (isoWeek : ℤ → ℕ) (rows : List EmployeeRow)
    (st : Book × List AssignmentRecord) (s : DemandRow) : Book × List AssignmentRecord :=
  let res := slotOutput isoWeek rows st.1 s
  (res.1, st.2 ++ res.2)

/-- `df_d.sort_values("timestamp")`, modelled as a stable sort by timestamp. -/
def sortDemand (l : List DemandRow) : List DemandRow :=
  l.insertionSort (fun a b => a.ts ≤ b.ts)

/-- The full greedy scheduling loop: initial book from the roster, then fold
over the time-sorted demand slots. -/
def runSchedule (isoWeek : ℤ → ℕ) (demand : List DemandRow) (rows : List EmployeeRow) :
    Book × List AssignmentRecord :=
  (sortDemand demand).foldl (processSlot isoWeek rows) (initBook rows, [])

/-- One row of the coverage report: the demand row joined with
`total_assigned_hours` and `understaff`. -/
structure CoverageRow where
  ts : ℤ
  hour : ℕ
  demand : ℕ
  total_assigned_hours : ℚ
  understaff : ℚ
deriving DecidableEq, Repr

/-- `round(x, 2)` on exact values. -/
def round2 (q : ℚ) : ℚ := ((round (q * 100) : ℤ) : ℚ) / 100

/-- The grouped sum `schedule_df.groupby("timestamp")["assigned_hours"].sum()`
evaluated at one timestamp (0 when no record shares it, matching `fillna(0)`
after the left join). -/
def totalAssigned (recs : List AssignmentRecord) (ts : ℤ) : ℚ :=
  ((recs.filter (fun r => r.ts == ts)).map (fun r => r.assigned_hours)).sum

/-- The coverage report: the (sorted) demand rows left-joined with the grouped
assignment totals, plus the clamped rounded understaffing. -/
def coverageReport (rows : List EmployeeRow) (recs : List AssignmentRecord)
    (sortedDemand : List DemandRow) : List CoverageRow :=
  sortedDemand.map (fun s =>
    let total := totalAssigned recs s.ts
    { ts := s.ts
      hour := s.hour
      demand := s.demand
      total_assigned_hours := total
      understaff := max 0 (round2 ((s.demand : ℚ) - total * avgCapacity rows)) })

/-- `none`-last ordering on optional employee ids, matching pandas
`sort_values` placing missing ids after present ones within a timestamp. -/
def optIdLE (a b : Option ℕ) : Bool :=
  match a, b with
  | some x, some y => x ≤ y
  | some _, none => true
  | none, none => true
  | none, some _ => false

/-- `final_schedule.sort_values(["timestamp","employee_id"])` (stable). -/
def sortFinal (recs : List AssignmentRecord) : List AssignmentRecord :=
  recs.insertionSort (fun a b => a.ts < b.ts ∨ (a.ts = b.ts ∧ optIdLE a.employee_id b.employee_id))

/-- The result of a successful run: the returned assignment log, the coverage
report, and the content written to `output_path` when one was supplied. -/
structure ScheduleResult where
  schedule : List AssignmentRecord
  coverage : List CoverageRow
  fileOut : Option (List AssignmentRecord)
deriving DecidableEq, Repr

/-- `generate_schedule(demand_df, employees_df, config=None, output_path=None)`.
The `config` argument is accepted and never read, exactly as in the source.
A missing `timestamp` column raises before any processing. -/
def generate_schedule (isoWeek : ℤ → ℕ) (demand : DemandInput) (roster : List EmployeeRow)
    (config : Option Config) (output_path : Bool) : Except String ScheduleResult :=
  if demand.hasTimestamp then
    let run := runSchedule isoWeek demand.rows roster
    let cover := coverageReport roster run.2 (sortDemand demand.rows)
    let finalSched := sortFinal run.2
    .ok { schedule := finalSched
          coverage := cover
          fileOut := if output_path then some finalSched else none }
  else
    .error "demand_df must have timestamp column"

/-!  ## Derived definitions used by the claim statements -/

/-- The total "effective" ranking the stable candidate sort realizes: strictly
better three-part key, or equal key and not-later original book position. -/
def rankedBefore (a b : Candidate) : Prop :=
  key3 a < key3 b ∨ (key3 a = key3 b ∧ a.idx ≤ b.idx)

/-- The candidate ordering spelled out as in the specification: preference
match descending, then skill descending, then assigned hours this week
ascending, residual ties by original book position (the deterministic
tie-break realized by the stable sort). -/
def specRanked (a b : Candidate) : Prop :=
  b.pref_score < a.pref_score ∨
  (a.pref_score = b.pref_score ∧
    (b.skill < a.skill ∨
      (a.skill = b.skill ∧
        (a.assigned_this_week < b.assigned_this_week ∨
          (a.assigned_this_week = b.assigned_this_week ∧ a.idx ≤ b.idx)))))

/-- Number of assignment records of a given employee in a given week. -/
def countRecs (recs : List AssignmentRecord) (id w : ℕ) : ℕ :=
  (recs.filter (fun r => r.employee_id == some id && r.week == w)).length

/-- Total assigned hours recorded for a given employee in a given week. -/
def empWeekSum (recs : List AssignmentRecord) (id w : ℕ) : ℚ :=
  ((recs.filter (fun r => r.employee_id == some id && r.week == w)).map
    (fun r => r.assigned_hours)).sum

/-- The run invariant tying the ledger to the assignment log: distinct book
keys, positive caps, unit hours on employee records, week-hours equal to the
record count, and the weekly bound. -/
def goodBook (st : Book × List AssignmentRecord) : Prop :=
  (st.1.map Prod.fst).Nodup ∧
  (∀ p ∈ st.1, 0 < p.2.max_week_hours) ∧
  (∀ r ∈ st.2, r.employee_id ≠ none → r.assigned_hours = 1) ∧
  (∀ p ∈ st.1, ∀ w, lookupWeek p.2.assigned_hours_by_week w = (countRecs st.2 p.1 w : ℚ)) ∧
  (∀ p ∈ st.1, ∀ w, lookupWeek p.2.assigned_hours_by_week w < p.2.max_week_hours + 1)

/-!  ## Association-list lemmas -/

theorem lookupWeek_setWeek (m : List (ℕ × ℚ)) (w w' : ℕ) (v : ℚ) :
    lookupWeek (setWeek m w v) w' = if w' = w then v else lookupWeek m w' := by
  induction m with
  | nil =>
    by_cases h : w' = w
    · simp [setWeek, lookupWeek, List.find?, h]
    · have hb : (w == w') = false := beq_eq_false_iff_ne.2 (by omega)
      simp [setWeek, lookupWeek, List.find?, hb, h]
  | cons p rest ih =>
    by_cases hp : p.1 = w
    · by_cases h : w' = w
      · simp [setWeek, lookupWeek, List.find?, hp, h]
      · have hb : (w == w') = false := beq_eq_false_iff_ne.2 (by omega)
        have hb' : (p.1 == w') = false := beq_eq_false_iff_ne.2 (by omega)
        simp [setWeek, lookupWeek, List.find?, hp, h, hb, hb']
    · have hp' : (p.1 == w) = false := beq_eq_false_iff_ne.2 hp
      by_cases h : p.1 = w'
      · have hw : w' ≠ w := by omega
        simp [setWeek, lookupWeek, List.find?, hp', h, hw]
      · have h' : (p.1 == w') = false := beq_eq_false_iff_ne.2 h
        simpa [setWeek, lookupWeek, List.find?, hp', h'] using ih

theorem mem_upsert {id : ℕ} {info : EmpInfo} {p : ℕ × EmpInfo} :
    ∀ {b : Book}, p ∈ upsert b id info → p = (id, info) ∨ p ∈ b := by
  intro b
  induction b with
  | nil => intro h; simpa [upsert] using h
  | cons q rest ih =>
    intro h
    by_cases hq : q.1 = id
    · rw [upsert, if_pos (by simp [hq])] at h
      rcases List.mem_cons.1 h with h1 | h1
      · exact Or.inl h1
      · exact Or.inr (List.mem_cons_of_mem _ h1)
    · rw [upsert, if_neg (by simp [hq])] at h
      rcases List.mem_cons.1 h with h1 | h1
      · exact Or.inr (h1 ▸ List.mem_cons_self _ _)
      · rcases ih h1 with h2 | h2
        · exact Or.inl h2
        · exact Or.inr (List.mem_cons_of_mem _ h2)

theorem keys_upsert_sub {b : Book} {id k : ℕ} {info : EmpInfo}
    (h : k ∈ (upsert b id info).map Prod.fst) : k = id ∨ k ∈ b.map Prod.fst := by
  rcases List.mem_map.1 h with ⟨p, hp, hk⟩
  rcases mem_upsert hp with h' | h'
  · exact Or.inl (by rw [← hk, h'])
  · exact Or.inr (hk ▸ List.mem_map_of_mem _ h')

theorem keys_upsert_nodup (id : ℕ) (info : EmpInfo) :
    ∀ {b : Book}, (b.map Prod.fst).Nodup → ((upsert b id info).map Prod.fst).Nodup := by
  intro b
  induction b with
  | nil => intro _; simp [upsert]
  | cons q rest ih =>
    intro h
    simp only [List.map_cons, List.nodup_cons] at h
    by_cases hq : q.1 = id
    · rw [upsert, if_pos (by simp [hq])]
      simp only [List.map_cons, List.nodup_cons]
      exact ⟨by simpa [hq] using h.1, h.2⟩
    · rw [upsert, if_neg (by simp [hq])]
      simp only [List.map_cons, List.nodup_cons]
      refine ⟨fun hc => ?_, ih h.2⟩
      rcases keys_upsert_sub hc with h' | h'
      · exact hq h'
      · exact h.1 h'

theorem initBook_keys_nodup (rows : List EmployeeRow) :
    ((initBook rows).map Prod.fst).Nodup := by
  suffices h : ∀ (b : Book), (b.map Prod.fst).Nodup →
      ((rows.foldl (fun b r => upsert b r.employee_id (mkInfo r)) b).map Prod.fst).Nodup by
    exact h [] (by simp)
  induction rows with
  | nil => intro b hb; simpa using hb
  | cons r rest ih =>
    intro b hb
    exact ih _ (keys_upsert_nodup _ _ hb)

theorem initBook_mem {rows : List EmployeeRow} {p : ℕ × EmpInfo}
    (h : p ∈ initBook rows) : ∃ r ∈ rows, p = (r.employee_id, mkInfo r) := by
  suffices h' : ∀ (b : Book), p ∈ rows.foldl (fun b r => upsert b r.employee_id (mkInfo r)) b →
      p ∈ b ∨ ∃ r ∈ rows, p = (r.employee_id, mkInfo r) by
    rcases h' [] h with hc | hc
    · simp at hc
    · exact hc
  clear h
  induction rows with
  | nil => intro b hb; exact Or.inl hb
  | cons r rest ih =>
    intro b hb
    rw [List.foldl_cons] at hb
    rcases ih (upsert b r.employee_id (mkInfo r)) hb with hc | hc
    · rcases mem_upsert hc with h' | h'
      · exact Or.inr ⟨r, List.mem_cons_self _ _, h'⟩
      · exact Or.inl h'
    · rcases hc with ⟨r', hr', hp⟩
      exact Or.inr ⟨r', List.mem_cons_of_mem _ hr', hp⟩

theorem bookFind_eq_of_mem {b : Book} {p : ℕ × EmpInfo}
    (hnd : (b.map Prod.fst).Nodup) (hp : p ∈ b) : bookFind b p.1 = some p.2 := by
  induction b with
  | nil => simp at hp
  | cons q rest ih =>
    simp only [List.map_cons, List.nodup_cons] at hnd
    rcases List.mem_cons.1 hp with h | h
    · simp [bookFind, List.find?, h]
    · have hne : q.1 ≠ p.1 := by
        intro hc
        exact hnd.1 (hc ▸ List.mem_map_of_mem _ h)
      have := ih hnd.2 h
      simpa [bookFind, List.find?, show (q.1 == p.1) = false by simp [hne]] using this

theorem eq_of_mem_nodup_keys {b : Book} {p q : ℕ × EmpInfo}
    (hnd : (b.map Prod.fst).Nodup) (hp : p ∈ b) (hq : q ∈ b) (hk : p.1 = q.1) : p = q := by
  have h1 := bookFind_eq_of_mem hnd hp
  have h2 := bookFind_eq_of_mem hnd hq
  rw [hk, h2] at h1
  exact Prod.ext hk (Option.some.inj h1).symm

/-!  ## Candidate-building lemmas -/

theorem buildCands_mem {elig : EmpInfo → Bool} {hour w : ℕ} {c : Candidate} :
    ∀ {b : Book} {i : ℕ}, c ∈ buildCands elig hour w b i →
      ∃ p ∈ b, elig p.2 = true ∧ ∃ j, c = mkCand p.1 p.2 hour w j := by
  intro b
  induction b with
  | nil => intro i h; simp [buildCands] at h
  | cons p rest ih =>
    intro i h
    rw [buildCands] at h
    by_cases he : elig p.2
    · rw [if_pos he] at h
      rcases List.mem_cons.1 h with h1 | h1
      · exact ⟨p, List.mem_cons_self _ _, he, i, h1⟩
      · rcases ih h1 with ⟨q, hq, hqe, j, hj⟩
        exact ⟨q, List.mem_cons_of_mem _ hq, hqe, j, hj⟩
    · rw [if_neg he] at h
      rcases ih h with ⟨q, hq, hqe, j, hj⟩
      exact ⟨q, List.mem_cons_of_mem _ hq, hqe, j, hj⟩

theorem buildCands_ids_sublist (elig : EmpInfo → Bool) (hour w : ℕ) :
    ∀ (b : Book) (i : ℕ),
      ((buildCands elig hour w b i).map (fun c => c.emp_id)).Sublist (b.map Prod.fst) := by
  intro b
  induction b with
  | nil => intro i; simp [buildCands]
  | cons p rest ih =>
    intro i
    rw [buildCands]
    by_cases he : elig p.2
    · rw [if_pos he]
      simpa [mkCand] using (ih (i + 1)).cons₂ p.1
    · rw [if_neg he]
      exact (ih (i + 1)).cons p.1

theorem buildCands_idx_ge {elig : EmpInfo → Bool} {hour w : ℕ} :
    ∀ {b : Book} {i : ℕ}, ∀ c ∈ buildCands elig hour w b i, i ≤ c.idx := by
  intro b
  induction b with
  | nil => intro i c hc; simp [buildCands] at hc
  | cons p rest ih =>
    intro i c hc
    rw [buildCands] at hc
    by_cases he : elig p.2
    · rw [if_pos he] at hc
      rcases List.mem_cons.1 hc with h1 | h1
      · simp [h1, mkCand]
      · exact Nat.le_of_succ_le (ih c h1)
    · rw [if_neg he] at hc
      exact Nat.le_of_succ_le (ih c hc)

theorem buildCands_idx_pairwise (elig : EmpInfo → Bool) (hour w : ℕ) :
    ∀ (b : Book) (i : ℕ),
      (buildCands elig hour w b i).Pairwise (fun a c => a.idx < c.idx) := by
  intro b
  induction b with
  | nil => intro i; simp [buildCands]
  | cons p rest ih =>
    intro i
    rw [buildCands]
    by_cases he : elig p.2
    · rw [if_pos he]
      refine List.pairwise_cons.2 ⟨fun c hc => ?_, ih (i + 1)⟩
      have := buildCands_idx_ge c hc
      simp only [mkCand]
      omega
    · rw [if_neg he]
      exact ih (i + 1)

/-!  ## Stability of the candidate sort

Python's `list.sort` is stable, so the sorted candidate list is ordered by the
three explicit keys with residual ties in original (book-position) order.  The
next lemmas prove this for the insertion-sort model. -/

theorem key3_le_of_rankedBefore {a b : Candidate} (h : rankedBefore a b) :
    key3 a ≤ key3 b := by
  rcases h with h | h
  · exact le_of_lt h
  · exact le_of_eq h.1

theorem pairwise_orderedInsert_ranked (a : Candidate) :
    ∀ (l : List Candidate), l.Pairwise rankedBefore → (∀ x ∈ l, a.idx ≤ x.idx) →
      (l.orderedInsert candLE a).Pairwise rankedBefore := by
  intro l
  induction l with
  | nil => intro _ _; simp
  | cons b t ih =>
    intro hp hidx
    rw [List.orderedInsert]
    rcases List.pairwise_cons.1 hp with ⟨hbt, htp⟩
    by_cases hab : candLE a b
    · rw [if_pos hab]
      refine List.pairwise_cons.2 ⟨?_, hp⟩
      intro x hx
      rcases List.mem_cons.1 hx with h1 | h1
      · subst h1
        rcases lt_or_eq_of_le hab with h2 | h2
        · exact Or.inl h2
        · exact Or.inr ⟨h2, hidx _ (List.mem_cons_self _ _)⟩
      · have hbx : key3 b ≤ key3 x := key3_le_of_rankedBefore (hbt x h1)
        have hax : key3 a ≤ key3 x := le_trans hab hbx
        rcases lt_or_eq_of_le hax with h2 | h2
        · exact Or.inl h2
        · exact Or.inr ⟨h2, hidx _ (List.mem_cons_of_mem _ h1)⟩
    · rw [if_neg hab]
      have hba : key3 b < key3 a := lt_of_not_le hab
      refine List.pairwise_cons.2 ⟨?_, ih htp (fun x hx => hidx _ (List.mem_cons_of_mem _ hx))⟩
      intro x hx
      rcases (List.mem_orderedInsert candLE).1 hx with h1 | h1
      · exact h1 ▸ Or.inl hba
      · exact hbt x h1

theorem pairwise_sortCands_ranked :
    ∀ (l : List Candidate), l.Pairwise (fun a c => a.idx < c.idx) →
      (sortCands l).Pairwise rankedBefore := by
  intro l
  induction l with
  | nil => intro _; simp [sortCands, List.insertionSort]
  | cons a t ih =>
    intro hp
    rcases List.pairwise_cons.1 hp with ⟨hat, htp⟩
    rw [sortCands, List.insertionSort]
    refine pairwise_orderedInsert_ranked a _ (ih htp) ?_
    intro x hx
    exact le_of_lt (hat x ((List.mem_insertionSort candLE).1 hx))

theorem sortCands_perm (l : List Candidate) : (sortCands l).Perm l :=
  List.perm_insertionSort candLE l

/-!  ## Commit-loop lemmas -/

theorem lookupWeek_bump (info : EmpInfo) (ts : ℤ) (w w' : ℕ) :
    lookupWeek (bump ts w info).assigned_hours_by_week w' =
      if w' = w then lookupWeek info.assigned_hours_by_week w + 1
      else lookupWeek info.assigned_hours_by_week w' := by
  simp [bump, lookupWeek_setWeek]

theorem keys_commitOne (b : Book) (ts : ℤ) (w id : ℕ) :
    (commitOne b ts w id).map Prod.fst = b.map Prod.fst := by
  rw [commitOne, List.map_map]
  apply List.map_congr_left
  intro p _
  by_cases h : p.1 = id <;> simp [h]

theorem commitChosen_keys (ts : ℤ) (hour w : ℕ) :
    ∀ (chosen : List Candidate) (b : Book),
      (commitChosen b ts hour w chosen).1.map Prod.fst = b.map Prod.fst := by
  intro chosen
  induction chosen with
  | nil => intro b; simp [commitChosen]
  | cons c rest ih =>
    intro b
    rw [commitChosen]
    exact (ih (commitOne b ts w c.emp_id)).trans (keys_commitOne b ts w c.emp_id)

theorem commitChosen_rec_mem (ts : ℤ) (hour w : ℕ) :
    ∀ (chosen : List Candidate) (b : Book), ∀ r ∈ (commitChosen b ts hour w chosen).2,
      ∃ c ∈ chosen, r.employee_id = some c.emp_id ∧ r.assigned_hours = 1 ∧
        r.week = w ∧ r.ts = ts := by
  intro chosen
  induction chosen with
  | nil => intro b r hr; simp [commitChosen] at hr
  | cons c rest ih =>
    intro b r hr
    rw [commitChosen] at hr
    rcases List.mem_cons.1 hr with h1 | h1
    · exact ⟨c, List.mem_cons_self _ _, by simp [h1]⟩
    · rcases ih _ r h1 with ⟨c', hc', hprops⟩
      exact ⟨c', List.mem_cons_of_mem _ hc', hprops⟩

theorem commitChosen_fst (ts : ℤ) (hour w : ℕ) :
    ∀ (chosen : List Candidate) (b : Book),
      (chosen.map (fun c => c.emp_id)).Nodup →
      (commitChosen b ts hour w chosen).1 =
        b.map (fun p =>
          if p.1 ∈ chosen.map (fun c => c.emp_id) then (p.1, bump ts w p.2) else p) := by
  intro chosen
  induction chosen with
  | nil =>
    intro b _
    simp [commitChosen]
  | cons c rest ih =>
    intro b hnd
    simp only [List.map_cons, List.nodup_cons] at hnd
    rw [commitChosen]
    show (commitChosen (commitOne b ts w c.emp_id) ts hour w rest).1 = _
    rw [ih _ hnd.2, commitOne, List.map_map]
    apply List.map_congr_left
    intro p _
    show (if ((if p.1 == c.emp_id then (p.1, bump ts w p.2) else p) : ℕ × EmpInfo).1 ∈
        rest.map (fun c => c.emp_id) then
          (((if p.1 == c.emp_id then (p.1, bump ts w p.2) else p) : ℕ × EmpInfo).1,
            bump ts w ((if p.1 == c.emp_id then (p.1, bump ts w p.2) else p) : ℕ × EmpInfo).2)
        else (if p.1 == c.emp_id then (p.1, bump ts w p.2) else p)) = _
    by_cases hp : p.1 = c.emp_id
    · have hinner : (if p.1 == c.emp_id then (p.1, bump ts w p.2) else p) = (p.1, bump ts w p.2) :=
        if_pos (by simp [hp])
      rw [hinner]
      show (if p.1 ∈ rest.map (fun c => c.emp_id) then _ else _) = _
      rw [if_neg (hp ▸ hnd.1), List.map_cons,
        if_pos (show p.1 ∈ c.emp_id :: rest.map (fun c => c.emp_id) by
          rw [hp]; exact List.mem_cons_self _ _)]
    · have hinner : (if p.1 == c.emp_id then (p.1, bump ts w p.2) else p) = p :=
        if_neg (by simp [hp])
      rw [hinner, List.map_cons]
      by_cases h3 : p.1 ∈ rest.map (fun c => c.emp_id)
      · rw [if_pos h3, if_pos (List.mem_cons_of_mem _ h3)]
      · rw [if_neg h3, if_neg (fun hc => (List.mem_cons.1 hc).elim hp h3)]

theorem countRecs_cons (r : AssignmentRecord) (recs : List AssignmentRecord) (id w : ℕ) :
    countRecs (r :: recs) id w =
      (if r.employee_id == some id && r.week == w then 1 else 0) + countRecs recs id w := by
  rw [countRecs, List.filter_cons]
  by_cases h : (r.employee_id == some id && r.week == w) = true
  · rw [if_pos h, if_pos h, List.length_cons, countRecs]
    omega
  · rw [if_neg h, if_neg h, countRecs, Nat.zero_add]

theorem countRecs_append (l l' : List AssignmentRecord) (id w : ℕ) :
    countRecs (l ++ l') id w = countRecs l id w + countRecs l' id w := by
  simp [countRecs, List.filter_append]

theorem commitChosen_countRecs (ts : ℤ) (hour w : ℕ) :
    ∀ (chosen : List Candidate) (b : Book) (id w' : ℕ),
      countRecs (commitChosen b ts hour w chosen).2 id w' =
        if w' = w then (chosen.filter (fun c => c.emp_id == id)).length else 0 := by
  intro chosen
  induction chosen with
  | nil =>
    intro b id w'
    by_cases h : w' = w <;> simp [commitChosen, countRecs, h]
  | cons c rest ih =>
    intro b id w'
    have step : (commitChosen b ts hour w (c :: rest)).2 =
        { employee_id := some c.emp_id, ts := ts, hour := hour, assigned_hours := 1,
          week := w, preferred_shift_match := c.pref_score,
          skill_level := ((bookFind b c.emp_id).getD default).skill,
          base_productivity := ((bookFind b c.emp_id).getD default).base_productivity }
        :: (commitChosen (commitOne b ts w c.emp_id) ts hour w rest).2 := rfl
    rw [step, countRecs_cons, ih]
    by_cases hw : w' = w
    · subst hw
      rw [if_pos rfl, if_pos rfl, List.filter_cons]
      by_cases hc : c.emp_id = id
      · rw [if_pos (by simp [hc]), if_pos (by simp [hc]), List.length_cons]
        omega
      · rw [if_neg (by simp [hc]), if_neg (by simp [hc]), Nat.zero_add]
    · have hb : ((w : ℕ) == w') = false := beq_eq_false_iff_ne.2 (by omega)
      rw [if_neg hw, if_neg hw, if_neg (by simp [hb]), Nat.zero_add]

theorem countRecs_sentinel (ts : ℤ) (hour w id w' : ℕ) :
    countRecs [sentinel ts hour w] id w' = 0 := by
  simp [countRecs, sentinel]

theorem filter_emp_eq_count (chosen : List Candidate) (id : ℕ) :
    (chosen.filter (fun c => c.emp_id == id)).length =
      (chosen.map (fun c => c.emp_id)).count id := by
  rw [List.count, List.countP_map, List.countP_eq_length_filter]
  rfl

theorem nodup_count_ite {l : List ℕ} (h : l.Nodup) (a : ℕ) :
    l.count a = if a ∈ l then 1 else 0 := by
  by_cases hm : a ∈ l
  · rw [if_pos hm, List.count_eq_one_of_mem h hm]
  · rw [if_neg hm, List.count_eq_zero_of_not_mem hm]

/-!  ## Slot-level lemmas -/

theorem slotCandidates_mem {rows : List EmployeeRow} {b : Book} {w : ℕ} {s : DemandRow}
    {c : Candidate} (h : c ∈ slotCandidates rows b w s) :
    ∃ p ∈ b, weeklyCapOk p.2 w = true ∧ ∃ j, c = mkCand p.1 p.2 s.hour w j := by
  rw [slotCandidates] at h
  by_cases hc : (strictCands b s.ts s.hour w).length < neededFor rows s.demand
  · rw [if_pos hc] at h
    exact buildCands_mem h
  · rw [if_neg hc] at h
    rcases buildCands_mem h with ⟨p, hp, he, j, hj⟩
    exact ⟨p, hp, (by simpa using he : weeklyCapOk p.2 w = true ∧ restOk p.2 s.ts = true).1, j, hj⟩

theorem slotCandidates_idx_pairwise (rows : List EmployeeRow) (b : Book) (w : ℕ)
    (s : DemandRow) : (slotCandidates rows b w s).Pairwise (fun a c => a.idx < c.idx) := by
  rw [slotCandidates]
  by_cases hc : (strictCands b s.ts s.hour w).length < neededFor rows s.demand
  · rw [if_pos hc]
    exact buildCands_idx_pairwise _ _ _ _ _
  · rw [if_neg hc]
    exact buildCands_idx_pairwise _ _ _ _ _

theorem slotCandidates_ids_nodup {rows : List EmployeeRow} {b : Book} {w : ℕ} {s : DemandRow}
    (hnd : (b.map Prod.fst).Nodup) :
    ((slotCandidates rows b w s).map (fun c => c.emp_id)).Nodup := by
  rw [slotCandidates]
  by_cases hc : (strictCands b s.ts s.hour w).length < neededFor rows s.demand
  · rw [if_pos hc]
    exact (buildCands_ids_sublist _ _ _ b 0).nodup hnd
  · rw [if_neg hc]
    exact (buildCands_ids_sublist _ _ _ b 0).nodup hnd

theorem slotChosen_sub {rows : List EmployeeRow} {b : Book} {w : ℕ} {s : DemandRow}
    {c : Candidate} (h : c ∈ slotChosen rows b w s) : c ∈ slotCandidates rows b w s :=
  (sortCands_perm _).mem_iff.1 (List.take_subset _ _ h)

theorem slotChosen_mem {rows : List EmployeeRow} {b : Book} {w : ℕ} {s : DemandRow}
    {c : Candidate} (h : c ∈ slotChosen rows b w s) :
    ∃ p ∈ b, weeklyCapOk p.2 w = true ∧ ∃ j, c = mkCand p.1 p.2 s.hour w j :=
  slotCandidates_mem (slotChosen_sub h)

theorem slotChosen_ids_nodup {rows : List EmployeeRow} {b : Book} {w : ℕ} {s : DemandRow}
    (hnd : (b.map Prod.fst).Nodup) :
    ((slotChosen rows b w s).map (fun c => c.emp_id)).Nodup := by
  rw [slotChosen, List.map_take]
  refine (List.take_sublist _ _).nodup ?_
  exact ((sortCands_perm _).map (fun c => c.emp_id)).nodup_iff.2 (slotCandidates_ids_nodup hnd)

theorem slotOutput_countRecs (isoWeek : ℤ → ℕ) (rows : List EmployeeRow) (b : Book)
    (s : DemandRow) (id w' : ℕ) :
    countRecs (slotOutput isoWeek rows b s).2 id w' =
      if w' = isoWeek s.ts then
        ((slotChosen rows b (isoWeek s.ts) s).filter (fun c => c.emp_id == id)).length
      else 0 := by
  show countRecs (if (slotChosen rows b (isoWeek s.ts) s).isEmpty then
      (commitChosen b s.ts s.hour (isoWeek s.ts) (slotChosen rows b (isoWeek s.ts) s)).2 ++
        [sentinel s.ts s.hour (isoWeek s.ts)]
    else (commitChosen b s.ts s.hour (isoWeek s.ts) (slotChosen rows b (isoWeek s.ts) s)).2)
      id w' = _
  by_cases he : (slotChosen rows b (isoWeek s.ts) s).isEmpty
  · rw [if_pos he, countRecs_append, countRecs_sentinel, commitChosen_countRecs, Nat.add_zero]
  · rw [if_neg he, commitChosen_countRecs]

theorem slotOutput_rec_mem (isoWeek : ℤ → ℕ) (rows : List EmployeeRow) (b : Book)
    (s : DemandRow) : ∀ r ∈ (slotOutput isoWeek rows b s).2,
      (r.employee_id = none ∧ r.assigned_hours = 0) ∨
      (∃ c ∈ slotChosen rows b (isoWeek s.ts) s, r.employee_id = some c.emp_id ∧
        r.assigned_hours = 1 ∧ r.week = isoWeek s.ts ∧ r.ts = s.ts) := by
  intro r hr
  rw [slotOutput] at hr
  by_cases he : (slotChosen rows b (isoWeek s.ts) s).isEmpty
  · replace hr : r ∈ (commitChosen b s.ts s.hour (isoWeek s.ts)
        (slotChosen rows b (isoWeek s.ts) s)).2 ++ [sentinel s.ts s.hour (isoWeek s.ts)] := by
      simpa [he] using hr
    rcases List.mem_append.1 hr with h1 | h1
    · rcases commitChosen_rec_mem _ _ _ _ _ r h1 with ⟨c, hc, hprops⟩
      exact Or.inr ⟨c, hc, hprops⟩
    · rcases List.mem_singleton.1 h1 with h2
      exact Or.inl (by simp [h2, sentinel])
  · replace hr : r ∈ (commitChosen b s.ts s.hour (isoWeek s.ts)
        (slotChosen rows b (isoWeek s.ts) s)).2 := by
      simpa [he] using hr
    rcases commitChosen_rec_mem _ _ _ _ _ r hr with ⟨c, hc, hprops⟩
    exact Or.inr ⟨c, hc, hprops⟩

theorem slotOutput_fst (isoWeek : ℤ → ℕ) (rows : List EmployeeRow) (b : Book) (s : DemandRow) :
    (slotOutput isoWeek rows b s).1 =
      (commitChosen b s.ts s.hour (isoWeek s.ts) (slotChosen rows b (isoWeek s.ts) s)).1 := rfl

/-!  ## The run invariant -/

theorem goodBook_init (rows : List EmployeeRow)
    (hmax : ∀ r ∈ rows, 0 < r.max_week_hours) : goodBook (initBook rows, []) := by
  refine ⟨initBook_keys_nodup rows, ?_, ?_, ?_, ?_⟩
  · intro p hp
    rcases initBook_mem hp with ⟨r, hr, hpr⟩
    rw [hpr]
    simpa [mkInfo] using hmax r hr
  · intro r hr
    simp at hr
  · intro p hp w
    rcases initBook_mem hp with ⟨r, hr, hpr⟩
    subst hpr
    simp [mkInfo, lookupWeek, countRecs]
  · intro p hp w
    rcases initBook_mem hp with ⟨r, hr, hpr⟩
    subst hpr
    have h := hmax r hr
    simp only [mkInfo, lookupWeek, List.find?]
    linarith

theorem processSlot_goodBook (isoWeek : ℤ → ℕ) (rows : List EmployeeRow)
    (st : Book × List AssignmentRecord) (s : DemandRow) (h : goodBook st) :
    goodBook (processSlot isoWeek rows st s) := by
  obtain ⟨hnd, hpos, hunit, hcount, hbound⟩ := h
  have hids : ((slotChosen rows st.1 (isoWeek s.ts) s).map (fun c => c.emp_id)).Nodup :=
    slotChosen_ids_nodup hnd
  have hfst : (processSlot isoWeek rows st s).1 =
      st.1.map (fun p =>
        if p.1 ∈ (slotChosen rows st.1 (isoWeek s.ts) s).map (fun c => c.emp_id) then
          (p.1, bump s.ts (isoWeek s.ts) p.2) else p) :=
    commitChosen_fst s.ts s.hour (isoWeek s.ts) _ st.1 hids
  have hsnd : (processSlot isoWeek rows st s).2 = st.2 ++ (slotOutput isoWeek rows st.1 s).2 := rfl
  -- the mapped function preserves keys and caps
  have hFfst : ∀ p : ℕ × EmpInfo,
      ((if p.1 ∈ (slotChosen rows st.1 (isoWeek s.ts) s).map (fun c => c.emp_id) then
        (p.1, bump s.ts (isoWeek s.ts) p.2) else p) : ℕ × EmpInfo).1 = p.1 := by
    intro p
    by_cases hin : p.1 ∈ (slotChosen rows st.1 (isoWeek s.ts) s).map (fun c => c.emp_id) <;>
      simp [hin]
  have hFmax : ∀ p : ℕ × EmpInfo,
      ((if p.1 ∈ (slotChosen rows st.1 (isoWeek s.ts) s).map (fun c => c.emp_id) then
        (p.1, bump s.ts (isoWeek s.ts) p.2) else p) : ℕ × EmpInfo).2.max_week_hours =
        p.2.max_week_hours := by
    intro p
    by_cases hin : p.1 ∈ (slotChosen rows st.1 (isoWeek s.ts) s).map (fun c => c.emp_id) <;>
      simp [hin, bump]
  -- count of new records for an id present in the book
  have hcnt : ∀ (id w' : ℕ), countRecs (processSlot isoWeek rows st s).2 id w' =
      countRecs st.2 id w' +
        if w' = isoWeek s.ts then
          (if id ∈ (slotChosen rows st.1 (isoWeek s.ts) s).map (fun c => c.emp_id) then 1 else 0)
        else 0 := by
    intro id w'
    rw [hsnd, countRecs_append, slotOutput_countRecs, filter_emp_eq_count, nodup_count_ite hids]
  -- the weekly cap held for every chosen employee before the commit
  have hcap : ∀ p ∈ st.1,
      p.1 ∈ (slotChosen rows st.1 (isoWeek s.ts) s).map (fun c => c.emp_id) →
      lookupWeek p.2.assigned_hours_by_week (isoWeek s.ts) < p.2.max_week_hours := by
    intro p hp hin
    rcases List.mem_map.1 hin with ⟨c, hc, hcid⟩
    rcases slotChosen_mem hc with ⟨q, hq, hcapq, j, hcq⟩
    have hkey : p.1 = q.1 := by rw [← hcid, hcq, mkCand]
    have hpq : p = q := eq_of_mem_nodup_keys hnd hp hq hkey
    subst hpq
    exact of_decide_eq_true hcapq
  refine ⟨?_, ?_, ?_, ?_, ?_⟩
  · rw [show (processSlot isoWeek rows st s).1 =
      (commitChosen st.1 s.ts s.hour (isoWeek s.ts)
        (slotChosen rows st.1 (isoWeek s.ts) s)).1 from rfl, commitChosen_keys]
    exact hnd
  · intro p' hp'
    rw [hfst] at hp'
    rcases List.mem_map.1 hp' with ⟨p, hp, hpF⟩
    rw [← hpF, hFmax]
    exact hpos p hp
  · intro r hr hrnone
    rw [hsnd] at hr
    rcases List.mem_append.1 hr with h1 | h1
    · exact hunit r h1 hrnone
    · rcases slotOutput_rec_mem isoWeek rows st.1 s r h1 with h2 | h2
      · exact absurd h2.1 hrnone
      · exact h2.choose_spec.2.2.1
  · intro p' hp' w'
    rw [hfst] at hp'
    rcases List.mem_map.1 hp' with ⟨p, hp, hpF⟩
    rw [← hpF, hcnt _ _]
    by_cases hin : p.1 ∈ (slotChosen rows st.1 (isoWeek s.ts) s).map (fun c => c.emp_id)
    · rw [hFfst, if_pos hin]
      show lookupWeek (bump s.ts (isoWeek s.ts) p.2).assigned_hours_by_week w' = _
      rw [lookupWeek_bump]
      by_cases hw : w' = isoWeek s.ts
      · rw [hw, if_pos rfl, if_pos rfl, if_pos hin, hcount p hp]
        push_cast
        ring
      · rw [if_neg hw, if_neg hw, hcount p hp, Nat.add_zero]
    · rw [hFfst, if_neg hin]
      show lookupWeek p.2.assigned_hours_by_week w' = _
      by_cases hw : w' = isoWeek s.ts
      · rw [if_pos hw, if_neg hin, hcount p hp, Nat.add_zero]
      · rw [if_neg hw, hcount p hp, Nat.add_zero]
  · intro p' hp' w'
    rw [hfst] at hp'
    rcases List.mem_map.1 hp' with ⟨p, hp, hpF⟩
    rw [← hpF, hFmax]
    by_cases hin : p.1 ∈ (slotChosen rows st.1 (isoWeek s.ts) s).map (fun c => c.emp_id)
    · rw [if_pos hin]
      show lookupWeek (bump s.ts (isoWeek s.ts) p.2).assigned_hours_by_week w' < _
      rw [lookupWeek_bump]
      by_cases hw : w' = isoWeek s.ts
      · rw [if_pos hw]
        have := hcap p hp hin
        linarith
      · rw [if_neg hw]
        exact hbound p hp w'
    · rw [if_neg hin]
      exact hbound p hp w'

theorem runSchedule_goodBook (isoWeek : ℤ → ℕ) (demand : List DemandRow)
    (rows : List EmployeeRow) (hmax : ∀ r ∈ rows, 0 < r.max_week_hours) :
    goodBook (runSchedule isoWeek demand rows) := by
  rw [runSchedule]
  have hgen : ∀ (l : List DemandRow) (st : Book × List AssignmentRecord), goodBook st →
      goodBook (l.foldl (processSlot isoWeek rows) st) := by
    intro l
    induction l with
    | nil => intro st hst; exact hst
    | cons s rest ih =>
      intro st hst
      rw [List.foldl_cons]
      exact ih _ (processSlot_goodBook isoWeek rows st s hst)
  exact hgen _ _ (goodBook_init rows hmax)

theorem sum_map_ones {l : List AssignmentRecord} (h : ∀ r ∈ l, r.assigned_hours = 1) :
    (l.map (fun r => r.assigned_hours)).sum = (l.length : ℚ) := by
  induction l with
  | nil => simp
  | cons r t ih =>
    rw [List.map_cons, List.sum_cons, h r (List.mem_cons_self _ _),
      ih (fun x hx => h x (List.mem_cons_of_mem _ hx)), List.length_cons]
    push_cast
    ring

theorem empWeekSum_eq_countRecs (recs : List AssignmentRecord) (id w : ℕ)
    (hunit : ∀ r ∈ recs, r.employee_id ≠ none → r.assigned_hours = 1) :
    empWeekSum recs id w = (countRecs recs id w : ℚ) := by
  rw [empWeekSum, countRecs]
  apply sum_map_ones
  intro r hr
  have hcond := List.of_mem_filter hr
  refine hunit r (List.mem_of_mem_filter hr) ?_
  intro hnone
  rw [hnone] at hcond
  simp at hcond

theorem empWeekSum_perm {recs recs' : List AssignmentRecord} (h : recs.Perm recs')
    (id w : ℕ) : empWeekSum recs id w = empWeekSum recs' id w := by
  rw [empWeekSum, empWeekSum]
  exact ((h.filter _).map _).sum_eq

theorem foldl_keys_nodup (isoWeek : ℤ → ℕ) (rows : List EmployeeRow) :
    ∀ (l : List DemandRow) (st : Book × List AssignmentRecord),
      (st.1.map Prod.fst).Nodup →
      ((l.foldl (processSlot isoWeek rows) st).1.map Prod.fst).Nodup := by
  intro l
  induction l with
  | nil => intro st hst; exact hst
  | cons s rest ih =>
    intro st hst
    rw [List.foldl_cons]
    refine ih _ ?_
    rw [show (processSlot isoWeek rows st s).1 =
      (commitChosen st.1 s.ts s.hour (isoWeek s.ts)
        (slotChosen rows st.1 (isoWeek s.ts) s)).1 from rfl, commitChosen_keys]
    exact hst

/-!  ## Concrete runs used by counterexamples and witnesses -/

/-- The one-slot run with a single employee whose weekly cap is the fractional
value 1/2: the employee is eligible (0 < 1/2) and receives a full 1.0 hour. -/
theorem cex1_run_eq :
    runSchedule (fun _ => 0) [⟨0, 0, 1⟩] [⟨0, 1, 1/2, "flex", 1⟩] =
      ([(0, { skill := 1, max_week_hours := 1/2, preferred_shift := "flex",
              base_productivity := 1, assigned_hours_by_week := [(0, 1)],
              last_assigned_ts := some 0 })],
       [{ employee_id := some 0, ts := 0, hour := 0, assigned_hours := 1, week := 0,
          preferred_shift_match := 1, skill_level := 1, base_productivity := 1 }]) := by
  simp [runSchedule, sortDemand, List.insertionSort, processSlot, slotOutput, slotChosen,
    slotCandidates, strictCands, relaxedCands, buildCands, mkCand, mkInfo, initBook, upsert,
    weeklyCapOk, restOk, lookupWeek, hourPrefScore, prefWindowMem, neededFor, avgCapacity,
    sortCands, sentinel]
  norm_num
  simp [commitChosen, commitOne, bump, setWeek, lookupWeek, bookFind]

/-- The one-slot run with a single employee of base productivity 1/20 (below
the 0.1 floor): the employee is assigned, so one unit-hour record exists. -/
theorem cex5_run_eq :
    runSchedule (fun _ => 0) [⟨0, 0, 1⟩] [⟨0, 1, 40, "flex", 1/20⟩] =
      ([(0, { skill := 1, max_week_hours := 40, preferred_shift := "flex",
              base_productivity := 1/20, assigned_hours_by_week := [(0, 1)],
              last_assigned_ts := some 0 })],
       [{ employee_id := some 0, ts := 0, hour := 0, assigned_hours := 1, week := 0,
          preferred_shift_match := 1, skill_level := 1, base_productivity := 1/20 }]) := by
  simp [runSchedule, sortDemand, List.insertionSort, processSlot, slotOutput, slotChosen,
    slotCandidates, strictCands, relaxedCands, buildCands, mkCand, mkInfo, initBook, upsert,
    weeklyCapOk, restOk, lookupWeek, hourPrefScore, prefWindowMem, neededFor, avgCapacity,
    sortCands, sentinel]
  norm_num
  simp [commitChosen, commitOne, bump, setWeek, lookupWeek, bookFind]

/-!  ## Rest-gap and ranking characterizations -/

theorem restOk_spec {info : EmpInfo} {ts : ℤ} (h : restOk info ts = true) :
    info.last_assigned_ts = none ∨
      ∃ t, info.last_assigned_ts = some t ∧ (28800 : ℤ) ≤ ts - t := by
  cases hl : info.last_assigned_ts with
  | none => exact Or.inl rfl
  | some t =>
    rw [restOk, hl] at h
    exact Or.inr ⟨t, rfl, of_decide_eq_true h⟩

theorem key3_lt_iff (a b : Candidate) :
    key3 a < key3 b ↔
      (b.pref_score < a.pref_score ∨
        (a.pref_score = b.pref_score ∧
          (b.skill < a.skill ∨
            (a.skill = b.skill ∧ a.assigned_this_week < b.assigned_this_week)))) := by
  rw [key3, key3, Prod.Lex.lt_iff, Prod.Lex.lt_iff]
  simp only [neg_lt_neg_iff, neg_inj, Nat.cast_lt, Nat.cast_inj]

theorem key3_eq_iff (a b : Candidate) :
    key3 a = key3 b ↔
      (a.pref_score = b.pref_score ∧ a.skill = b.skill ∧
        a.assigned_this_week = b.assigned_this_week) := by
  rw [key3, key3]
  simp only [toLex_inj, Prod.mk.injEq, neg_inj, Nat.cast_inj]

theorem rankedBefore_iff (a b : Candidate) : rankedBefore a b ↔ specRanked a b := by
  rw [rankedBefore, specRanked, key3_lt_iff, key3_eq_iff]
  constructor
  · rintro (h | h) <;> tauto
  · intro h
    rcases h with h | ⟨hp, h⟩
    · exact Or.inl (Or.inl h)
    rcases h with h | ⟨hs, h⟩
    · exact Or.inl (Or.inr ⟨hp, Or.inl h⟩)
    rcases h with h | ⟨hh, hidx⟩
    · exact Or.inl (Or.inr ⟨hp, Or.inr ⟨hs, h⟩⟩)
    · exact Or.inr ⟨⟨hp, hs, hh⟩, hidx⟩

/-!  ## Claim C2: two-tier relaxation -/

/-- C2: for any ledger state and slot, if the strict pass (weekly cap and
8-hour rest gap) supplies at least the required headcount, the slot's
candidate list is exactly the strict set — hence every chosen employee had
no prior assignment or a rest gap of at least 8 hours (28800 s) before this
slot — and otherwise the strict set is discarded wholesale and the candidate
list is rebuilt from the weekly-cap-only relaxed pass. -/
theorem c2_two_tier (rows : List EmployeeRow) (b : Book) (w : ℕ) (s : DemandRow) :
    (neededFor rows s.demand ≤ (strictCands b s.ts s.hour w).length →
      slotCandidates rows b w s = strictCands b s.ts s.hour w ∧
      (∀ c ∈ slotChosen rows b w s, ∃ info, (c.emp_id, info) ∈ b ∧
        (info.last_assigned_ts = none ∨
          ∃ t, info.last_assigned_ts = some t ∧ (28800 : ℤ) ≤ s.ts - t))) ∧
    ((strictCands b s.ts s.hour w).length < neededFor rows s.demand →
      slotCandidates rows b w s = relaxedCands b s.hour w) := by
  constructor
  · intro hge
    have heq : slotCandidates rows b w s = strictCands b s.ts s.hour w := by
      rw [slotCandidates, if_neg (not_lt.2 hge)]
    refine ⟨heq, ?_⟩
    intro c hc
    have hc' : c ∈ strictCands b s.ts s.hour w := heq ▸ slotChosen_sub hc
    rcases buildCands_mem hc' with ⟨p, hp, he, j, hj⟩
    have hrest : restOk p.2 s.ts = true :=
      ((by simpa using he : weeklyCapOk p.2 w = true ∧ restOk p.2 s.ts = true)).2
    have hid : c.emp_id = p.1 := by rw [hj]; rfl
    refine ⟨p.2, ?_, restOk_spec hrest⟩
    rw [hid]
    exact (Prod.mk.eta (p := p)) ▸ hp
  · intro hlt
    rw [slotCandidates, if_pos hlt]

/-- C2 witness: one employee with a fresh ledger, one slot demanding one
worker: the strict pass supplies the single needed candidate, so the slot uses
the strict set and the chosen employee has no prior assignment. -/
theorem c2_witness :
    slotCandidates [⟨0, 1, 40, "flex", 1⟩] [(0, mkInfo ⟨0, 1, 40, "flex", 1⟩)] 0 ⟨0, 0, 1⟩ =
      strictCands [(0, mkInfo ⟨0, 1, 40, "flex", 1⟩)] 0 0 0 ∧
    (∃ info, ((0 : ℕ), info) ∈ [(0, mkInfo ⟨0, 1, 40, "flex", 1⟩)] ∧
      (info.last_assigned_ts = none ∨
        ∃ t, info.last_assigned_ts = some t ∧
          (28800 : ℤ) ≤ (⟨0, 0, 1⟩ : DemandRow).ts - t)) := by
  have hdis : neededFor [⟨0, 1, 40, "flex", 1⟩] (⟨0, 0, 1⟩ : DemandRow).demand ≤
      (strictCands [(0, mkInfo ⟨0, 1, 40, "flex", 1⟩)] (⟨0, 0, 1⟩ : DemandRow).ts
        (⟨0, 0, 1⟩ : DemandRow).hour 0).length := by
    have h1 : strictCands [(0, mkInfo ⟨0, 1, 40, "flex", 1⟩)] 0 0 0 =
        [⟨0, 1, 1, 0, 1, 0⟩] := by
      simp [strictCands, buildCands, mkInfo, mkCand, weeklyCapOk, restOk, lookupWeek,
        hourPrefScore, prefWindowMem]
    have h2 : neededFor [⟨0, 1, 40, "flex", 1⟩] 1 = 1 := by
      rw [neededFor, avgCapacity]
      norm_num
    show neededFor [⟨0, 1, 40, "flex", 1⟩] 1 ≤
      (strictCands [(0, mkInfo ⟨0, 1, 40, "flex", 1⟩)] 0 0 0).length
    rw [h2, h1]
    norm_num
  have h := (c2_two_tier [⟨0, 1, 40, "flex", 1⟩] [(0, mkInfo ⟨0, 1, 40, "flex", 1⟩)] 0
    ⟨0, 0, 1⟩).1 hdis
  refine ⟨h.1, ?_⟩
  have hchosen : slotChosen [⟨0, 1, 40, "flex", 1⟩] [(0, mkInfo ⟨0, 1, 40, "flex", 1⟩)] 0
      ⟨0, 0, 1⟩ = [⟨0, 1, 1, 0, 1, 0⟩] := by
    simp [slotChosen, sortCands, slotCandidates, strictCands, relaxedCands, buildCands,
      mkCand, mkInfo, weeklyCapOk, restOk, lookupWeek, hourPrefScore, prefWindowMem,
      List.insertionSort, List.orderedInsert, neededFor, avgCapacity]
    norm_num
  exact h.2 ⟨0, 1, 1, 0, 1, 0⟩ (by rw [hchosen]; exact List.mem_singleton.2 rfl)

/-!  ## Claim C3: candidate ranking and selection -/

/-- C3: for any ledger state and slot, the sorted candidate list is a
permutation of the candidate list, ordered by preference-match descending,
then skill descending, then current-week assigned hours ascending, residual
ties broken by the fixed deterministic key "position in the employee book"
(first-appearance order of the roster — CPython dict order, which Python's
stable sort preserves); the chosen employees are exactly the first `needed`
entries of that list, and when fewer than `needed` candidates exist all of
them are chosen (understaffing is not an error). -/
theorem c3_ranking (rows : List EmployeeRow) (b : Book) (w : ℕ) (s : DemandRow) :
    (sortCands (slotCandidates rows b w s)).Perm (slotCandidates rows b w s) ∧
    (sortCands (slotCandidates rows b w s)).Pairwise specRanked ∧
    slotChosen rows b w s = (sortCands (slotCandidates rows b w s)).take (neededFor rows s.demand) ∧
    (slotChosen rows b w s).length =
      min (neededFor rows s.demand) (slotCandidates rows b w s).length := by
  refine ⟨sortCands_perm _, ?_, rfl, ?_⟩
  · exact (pairwise_sortCands_ranked _ (slotCandidates_idx_pairwise rows b w s)).imp
      (fun h => (rankedBefore_iff _ _).1 h)
  · rw [slotChosen, List.length_take, sortCands, List.length_insertionSort]

/-!  ## Claim C4: required headcount -/

/-- C4: the required headcount used for every slot is
`⌈demand / max(0.1, avg_capacity)⌉` where `avg_capacity` is the mean base
productivity of the whole roster (defaulting to 1.0 on an empty roster), the
same global value for every slot; the chosen list is the first that-many
sorted candidates. -/
theorem c4_headcount (rows : List EmployeeRow) (b : Book) (w : ℕ) (s : DemandRow) :
    neededFor rows s.demand =
      ⌈(s.demand : ℚ) / max (1 / 10)
        (if rows = [] then (1 : ℚ)
         else (rows.map (fun r => r.base_productivity)).sum / rows.length)⌉₊ ∧
    slotChosen rows b w s =
      (sortCands (slotCandidates rows b w s)).take
        ⌈(s.demand : ℚ) / max (1 / 10)
          (if rows = [] then (1 : ℚ)
           else (rows.map (fun r => r.base_productivity)).sum / rows.length)⌉₊ := by
  have h : neededFor rows s.demand =
      ⌈(s.demand : ℚ) / max (1 / 10)
        (if rows = [] then (1 : ℚ)
         else (rows.map (fun r => r.base_productivity)).sum / rows.length)⌉₊ := by
    rw [neededFor, avgCapacity, Int.ceil_toNat]
  exact ⟨h, by rw [slotChosen, h]⟩

/-!  ## Claim C1: weekly-cap invariant -/

/-- C1 counterexample: for the roster with `max_week_hours = 1/2` (a value the
data model allows: any positive float) and one demand slot, the run records
1.0 assigned hour for week 0, exceeding the weekly cap — eligibility is checked
before the increment, but the increment is a whole 1.0 hour, so a fractional
cap is overshot.  This refutes `assigned_hours_by_week[week] ≤ max_week_hours`
as stated. -/
theorem c1_counterexample :
    ¬ (∀ p ∈ (runSchedule (fun _ => 0) [⟨0, 0, 1⟩] [⟨0, 1, 1/2, "flex", 1⟩]).1, ∀ w : ℕ,
        lookupWeek p.2.assigned_hours_by_week w ≤ p.2.max_week_hours) := by
  intro hall
  have hmem : ((0 : ℕ), (⟨1, 1/2, "flex", 1, [(0, 1)], some 0⟩ : EmpInfo)) ∈
      (runSchedule (fun _ => 0) [⟨0, 0, 1⟩] [⟨0, 1, 1/2, "flex", 1⟩]).1 := by
    rw [cex1_run_eq]
    exact List.mem_singleton.2 rfl
  have h := hall _ hmem 0
  rw [show lookupWeek [((0 : ℕ), (1 : ℚ))] 0 = 1 by simp [lookupWeek, List.find?]] at h
  norm_num at h

/-- C1 (amended): after a run on any demand table and any roster with positive
weekly caps (the data model requires `max_week_hours > 0`), every employee's
recorded hours in every ISO week are strictly below `max_week_hours + 1`
(equivalently, at most `max_week_hours` whenever the cap is a whole number,
in particular for all integral caps), and they equal the sum of that
employee's `assigned_hours` over the returned assignment log for that week. -/
theorem c1_weekly_cap (isoWeek : ℤ → ℕ) (demand : List DemandRow) (rows : List EmployeeRow)
    (hmax : ∀ r ∈ rows, 0 < r.max_week_hours) :
    ∀ p ∈ (runSchedule isoWeek demand rows).1, ∀ w : ℕ,
      lookupWeek p.2.assigned_hours_by_week w < p.2.max_week_hours + 1 ∧
      empWeekSum (sortFinal (runSchedule isoWeek demand rows).2) p.1 w =
        lookupWeek p.2.assigned_hours_by_week w ∧
      (∀ n : ℕ, p.2.max_week_hours = (n : ℚ) →
        lookupWeek p.2.assigned_hours_by_week w ≤ (n : ℚ)) := by
  intro p hp w
  obtain ⟨hnd, hpos, hunit, hcount, hbound⟩ := runSchedule_goodBook isoWeek demand rows hmax
  refine ⟨hbound p hp w, ?_, ?_⟩
  · rw [sortFinal, empWeekSum_perm (List.perm_insertionSort _ _),
      empWeekSum_eq_countRecs _ _ _ hunit, hcount p hp w]
  · intro n hn
    have h1 := hbound p hp w
    have h2 := hcount p hp w
    rw [hn] at h1
    rw [h2] at h1 ⊢
    have h3 : countRecs (runSchedule isoWeek demand rows).2 p.1 w < n + 1 := by
      exact_mod_cast h1
    exact_mod_cast Nat.lt_succ_iff.1 h3

/-!  ## Claim C5: understaffing computation -/

/-- The one-slot run with a single employee of unit productivity. -/
theorem wit_run_eq :
    runSchedule (fun _ => 0) [⟨0, 0, 1⟩] [⟨0, 1, 40, "flex", 1⟩] =
      ([(0, { skill := 1, max_week_hours := 40, preferred_shift := "flex",
              base_productivity := 1, assigned_hours_by_week := [(0, 1)],
              last_assigned_ts := some 0 })],
       [{ employee_id := some 0, ts := 0, hour := 0, assigned_hours := 1, week := 0,
          preferred_shift_match := 1, skill_level := 1, base_productivity := 1 }]) := by
  simp [runSchedule, sortDemand, List.insertionSort, processSlot, slotOutput, slotChosen,
    slotCandidates, strictCands, relaxedCands, buildCands, mkCand, mkInfo, initBook, upsert,
    weeklyCapOk, restOk, lookupWeek, hourPrefScore, prefWindowMem, neededFor, avgCapacity,
    sortCands, sentinel]
  norm_num
  simp [commitChosen, commitOne, bump, setWeek, lookupWeek, bookFind]

/-- The coverage report of the 1/20-productivity run: the understaff value uses
the raw mean 1/20, giving `round2(1 - 1*(1/20)) = 19/20`. -/
theorem cex5_cover_eq :
    coverageReport [⟨0, 1, 40, "flex", 1/20⟩]
      (runSchedule (fun _ => 0) [⟨0, 0, 1⟩] [⟨0, 1, 40, "flex", 1/20⟩]).2
      (sortDemand [⟨0, 0, 1⟩]) = [⟨0, 0, 1, 1, 19/20⟩] := by
  rw [cex5_run_eq]
  simp [coverageReport, sortDemand, List.insertionSort, totalAssigned, avgCapacity, round2]
  norm_num [round_eq]

/-- The full generate_schedule call on the unit-productivity one-slot input. -/
theorem gen_small_eq :
    generate_schedule (fun _ => 0) ⟨true, [⟨0, 0, 1⟩]⟩ [⟨0, 1, 40, "flex", 1⟩] none false =
      .ok ⟨[⟨some 0, 0, 0, 1, 0, 1, 1, 1⟩], [⟨0, 0, 1, 1, 0⟩], none⟩ := by
  have hcov : coverageReport [⟨0, 1, 40, "flex", 1⟩]
      [{ employee_id := some 0, ts := 0, hour := 0, assigned_hours := 1, week := 0,
         preferred_shift_match := 1, skill_level := 1, base_productivity := 1 }]
      (sortDemand [⟨0, 0, 1⟩]) = [⟨0, 0, 1, 1, 0⟩] := by
    simp [coverageReport, sortDemand, List.insertionSort, totalAssigned, avgCapacity, round2]
  rw [generate_schedule, if_pos rfl]
  simp only [wit_run_eq]
  rw [hcov]
  simp [sortFinal, List.insertionSort, List.orderedInsert]

/-- C5 counterexample: with a roster whose mean base productivity is 1/20
(below the 0.1 floor), the code computes `understaff = 19/20` from the
un-floored mean, while the claim's formula — using "the same global average
capacity computed by the Demand Normalizer", i.e. the 0.1-floored mean of C4 —
yields 9/10.  The two disagree, refuting the claim as stated. -/
theorem c5_counterexample :
    coverageReport [⟨0, 1, 40, "flex", 1/20⟩]
      (runSchedule (fun _ => 0) [⟨0, 0, 1⟩] [⟨0, 1, 40, "flex", 1/20⟩]).2
      (sortDemand [⟨0, 0, 1⟩]) = [⟨0, 0, 1, 1, 19/20⟩] ∧
    max 0 (round2 ((1 : ℚ) - 1 * max (1 / 10) (avgCapacity [⟨0, 1, 40, "flex", 1/20⟩]))) = 9/10 ∧
    (19/20 : ℚ) ≠ 9/10 := by
  refine ⟨cex5_cover_eq, ?_, by norm_num⟩
  rw [avgCapacity]
  norm_num [round2, round_eq]

/-- C5 (amended): every coverage row satisfies
`understaff = max(0, round(demand − total_assigned_hours × avg, 2))` where
`avg` is the *un-floored* global mean base productivity (1.0 for an empty
roster); the 0.1 floor applies only inside the headcount division, not here.
In particular `understaff ≥ 0` always (overstaffing is clamped to zero). -/
theorem c5_understaff (isoWeek : ℤ → ℕ) (demand : DemandInput) (rows : List EmployeeRow)
    (config : Option Config) (path : Bool) (res : ScheduleResult)
    (h : generate_schedule isoWeek demand rows config path = .ok res) :
    ∀ row ∈ res.coverage,
      row.understaff =
        max 0 (round2 ((row.demand : ℚ) - row.total_assigned_hours * avgCapacity rows)) ∧
      0 ≤ row.understaff := by
  intro row hrow
  by_cases hts : demand.hasTimestamp
  · rw [generate_schedule, if_pos hts] at h
    have hcov : res.coverage =
        coverageReport rows (runSchedule isoWeek demand.rows rows).2 (sortDemand demand.rows) := by
      cases h
      rfl
    rw [hcov] at hrow
    rcases List.mem_map.1 hrow with ⟨s, _, hmap⟩
    refine ⟨?_, ?_⟩
    · rw [← hmap]
    · rw [← hmap]
      exact le_max_left 0 _
  · rw [generate_schedule, if_neg hts] at h
    exact absurd h (by simp)

/-- C5 witness: the amended understaff theorem applied to the concrete
one-slot, one-employee run of unit productivity, at its single coverage row. -/
theorem c5_witness :
    (⟨0, 0, 1, 1, 0⟩ : CoverageRow).understaff =
      max 0 (round2 (((⟨0, 0, 1, 1, 0⟩ : CoverageRow).demand : ℚ) -
        (⟨0, 0, 1, 1, 0⟩ : CoverageRow).total_assigned_hours *
          avgCapacity [⟨0, 1, 40, "flex", 1⟩])) ∧
    (0 : ℚ) ≤ (⟨0, 0, 1, 1, 0⟩ : CoverageRow).understaff :=
  c5_understaff (fun _ => 0) ⟨true, [⟨0, 0, 1⟩]⟩ [⟨0, 1, 40, "flex", 1⟩] none false _
    gen_small_eq ⟨0, 0, 1, 1, 0⟩ (List.mem_singleton.2 rfl)

/-!  ## Claim C6: left-join completeness -/

theorem totalAssigned_eq_zero {recs : List AssignmentRecord} {ts : ℤ}
    (h : ∀ r ∈ recs, r.ts ≠ ts) : totalAssigned recs ts = 0 := by
  rw [totalAssigned, List.filter_eq_nil_iff.2 (fun r hr => by simp [h r hr])]
  rfl

/-- C6: whenever generate_schedule returns, the coverage report has exactly
one row per demand row, and a coverage row whose timestamp matches no
assignment record has `total_assigned_hours = 0` (the left-join default). -/
theorem c6_left_join (isoWeek : ℤ → ℕ) (demand : DemandInput) (rows : List EmployeeRow)
    (config : Option Config) (path : Bool) (res : ScheduleResult)
    (h : generate_schedule isoWeek demand rows config path = .ok res) :
    res.coverage.length = demand.rows.length ∧
    ∀ row ∈ res.coverage,
      (∀ r ∈ (runSchedule isoWeek demand.rows rows).2, r.ts ≠ row.ts) →
      row.total_assigned_hours = 0 := by
  by_cases hts : demand.hasTimestamp
  · rw [generate_schedule, if_pos hts] at h
    have hcov : res.coverage =
        coverageReport rows (runSchedule isoWeek demand.rows rows).2 (sortDemand demand.rows) := by
      cases h
      rfl
    constructor
    · rw [hcov, coverageReport, List.length_map, sortDemand, List.length_insertionSort]
    · intro row hrow hnone
      rw [hcov] at hrow
      rcases List.mem_map.1 hrow with ⟨s, _, hmap⟩
      rw [← hmap]
      rw [← hmap] at hnone
      exact totalAssigned_eq_zero hnone
  · rw [generate_schedule, if_neg hts] at h
    exact absurd h (by simp)

/-- C6 witness: the left-join row count on the concrete one-slot,
one-employee run. -/
theorem c6_witness :
    (ScheduleResult.mk [⟨some 0, 0, 0, 1, 0, 1, 1, 1⟩] [⟨0, 0, 1, 1, 0⟩] none).coverage.length =
      (DemandInput.mk true [⟨0, 0, 1⟩]).rows.length :=
  (c6_left_join (fun _ => 0) ⟨true, [⟨0, 0, 1⟩]⟩ [⟨0, 1, 40, "flex", 1⟩] none false _
    gen_small_eq).1

/-!  ## Claim C7: sentinel for unfilled slots -/

/-- C7: for any ledger state and slot, if no candidate is chosen the slot
appends exactly one sentinel record with `employee_id = none` and
`assigned_hours = 0.0`; if at least one candidate is chosen, no record of the
slot is a sentinel (every appended record carries a real employee id). -/
theorem c7_sentinel (isoWeek : ℤ → ℕ) (rows : List EmployeeRow) (b : Book) (s : DemandRow) :
    (slotChosen rows b (isoWeek s.ts) s = [] →
      (slotOutput isoWeek rows b s).2 =
        [{ employee_id := none, ts := s.ts, hour := s.hour, assigned_hours := 0,
           week := isoWeek s.ts, preferred_shift_match := 0, skill_level := 0,
           base_productivity := 0 }]) ∧
    (slotChosen rows b (isoWeek s.ts) s ≠ [] →
      ∀ r ∈ (slotOutput isoWeek rows b s).2, r.employee_id ≠ none) := by
  constructor
  · intro hnil
    show (if (slotChosen rows b (isoWeek s.ts) s).isEmpty then
        (commitChosen b s.ts s.hour (isoWeek s.ts) (slotChosen rows b (isoWeek s.ts) s)).2 ++
          [sentinel s.ts s.hour (isoWeek s.ts)]
      else (commitChosen b s.ts s.hour (isoWeek s.ts) (slotChosen rows b (isoWeek s.ts) s)).2) = _
    rw [if_pos (List.isEmpty_iff.2 hnil), hnil]
    rfl
  · intro hne r hr
    have hempty : (slotChosen rows b (isoWeek s.ts) s).isEmpty = false := by
      rcases he : (slotChosen rows b (isoWeek s.ts) s).isEmpty with _ | _
      · rfl
      · exact absurd (List.isEmpty_iff.1 he) hne
    replace hr : r ∈ (commitChosen b s.ts s.hour (isoWeek s.ts)
        (slotChosen rows b (isoWeek s.ts) s)).2 := by
      have hshow : (slotOutput isoWeek rows b s).2 =
          (if (slotChosen rows b (isoWeek s.ts) s).isEmpty then
            (commitChosen b s.ts s.hour (isoWeek s.ts) (slotChosen rows b (isoWeek s.ts) s)).2 ++
              [sentinel s.ts s.hour (isoWeek s.ts)]
          else (commitChosen b s.ts s.hour (isoWeek s.ts)
            (slotChosen rows b (isoWeek s.ts) s)).2) := rfl
      rw [hshow, hempty] at hr
      simpa using hr
    rcases commitChosen_rec_mem _ _ _ _ _ r hr with ⟨c, _, hcid, _⟩
    rw [hcid]
    simp

/-- C7 witness: with an empty roster no candidate can be chosen, and the
concrete slot produces exactly the sentinel record. -/
theorem c7_witness :
    (slotOutput (fun _ => 0) [] [] ⟨0, 5, 3⟩).2 =
      [{ employee_id := none, ts := 0, hour := 5, assigned_hours := 0,
         week := 0, preferred_shift_match := 0, skill_level := 0,
         base_productivity := 0 }] :=
  (c7_sentinel (fun _ => 0) [] [] ⟨0, 5, 3⟩).1 (by
    simp [slotChosen, sortCands, slotCandidates, strictCands, relaxedCands, buildCands,
      List.insertionSort])

/-!  ## Claim C8: fatal error on missing timestamp column -/

/-- C8: when the demand input lacks the `timestamp` column, generate_schedule
raises the input error before any processing: the result is the error value
and no (schedule, coverage, file) triple is produced.  (In the embedding a
demand slot always carries a timestamp field; a slot "without a timestamp" can
only arise from the absent column, which is this case.) -/
theorem c8_missing_timestamp (isoWeek : ℤ → ℕ) (demand : DemandInput)
    (rows : List EmployeeRow) (config : Option Config) (path : Bool)
    (h : demand.hasTimestamp = false) :
    generate_schedule isoWeek demand rows config path =
      .error "demand_df must have timestamp column" ∧
    ∀ res : ScheduleResult, generate_schedule isoWeek demand rows config path ≠ .ok res := by
  have h1 : generate_schedule isoWeek demand rows config path =
      .error "demand_df must have timestamp column" := by
    rw [generate_schedule, h]
    simp
  refine ⟨h1, fun res hres => ?_⟩
  rw [h1] at hres
  exact Except.noConfusion hres

/-- C8 witness: a concrete demand input without the timestamp column. -/
theorem c8_witness :
    generate_schedule (fun _ => 0) ⟨false, [⟨0, 0, 1⟩]⟩ [⟨0, 1, 40, "flex", 1⟩] none true =
      .error "demand_df must have timestamp column" :=
  (c8_missing_timestamp (fun _ => 0) ⟨false, [⟨0, 0, 1⟩]⟩ [⟨0, 1, 40, "flex", 1⟩]
    none true rfl).1

/-!  ## Claim C9: the configuration object is a no-op -/

/-- C9: two calls on the same demand and employee tables that differ only in
the config argument (either may be absent) return identical results — the
embedded function, like the source, never reads `config`. -/
theorem c9_config_noop (isoWeek : ℤ → ℕ) (demand : DemandInput) (rows : List EmployeeRow)
    (cfg1 cfg2 : Option Config) (path : Bool) :
    generate_schedule isoWeek demand rows cfg1 path =
      generate_schedule isoWeek demand rows cfg2 path := rfl

/-!  ## Claim C10: per-slot distinctness of assigned employees -/

theorem commitChosen_id_sum (ts : ℤ) (hour w : ℕ) :
    ∀ (chosen : List Candidate) (b : Book) (id : ℕ),
      (((commitChosen b ts hour w chosen).2.filter
        (fun r => r.employee_id == some id)).map (fun r => r.assigned_hours)).sum =
        ((chosen.filter (fun c => c.emp_id == id)).length : ℚ) := by
  intro chosen
  induction chosen with
  | nil => intro b id; simp [commitChosen]
  | cons c rest ih =>
    intro b id
    have step : (commitChosen b ts hour w (c :: rest)).2 =
        { employee_id := some c.emp_id, ts := ts, hour := hour, assigned_hours := 1,
          week := w, preferred_shift_match := c.pref_score,
          skill_level := ((bookFind b c.emp_id).getD default).skill,
          base_productivity := ((bookFind b c.emp_id).getD default).base_productivity }
        :: (commitChosen (commitOne b ts w c.emp_id) ts hour w rest).2 := rfl
    rw [step, List.filter_cons, List.filter_cons]
    by_cases hc : c.emp_id = id
    · rw [if_pos (by simp [hc]), if_pos (by simp [hc]), List.map_cons, List.sum_cons,
        ih _ id, List.length_cons]
      push_cast
      ring
    · rw [if_neg (by simp [hc]), if_neg (by simp [hc]), ih _ id]

theorem slotOutput_id_sum (isoWeek : ℤ → ℕ) (rows : List EmployeeRow) (b : Book)
    (s : DemandRow) (id : ℕ) :
    (((slotOutput isoWeek rows b s).2.filter
      (fun r => r.employee_id == some id)).map (fun r => r.assigned_hours)).sum =
      (((slotChosen rows b (isoWeek s.ts) s).filter (fun c => c.emp_id == id)).length : ℚ) := by
  have hshow : (slotOutput isoWeek rows b s).2 =
      (if (slotChosen rows b (isoWeek s.ts) s).isEmpty then
        (commitChosen b s.ts s.hour (isoWeek s.ts) (slotChosen rows b (isoWeek s.ts) s)).2 ++
          [sentinel s.ts s.hour (isoWeek s.ts)]
      else (commitChosen b s.ts s.hour (isoWeek s.ts)
        (slotChosen rows b (isoWeek s.ts) s)).2) := rfl
  rw [hshow]
  by_cases he : (slotChosen rows b (isoWeek s.ts) s).isEmpty
  · rw [if_pos he, List.filter_append]
    have hsent : ([sentinel s.ts s.hour (isoWeek s.ts)].filter
        (fun r => r.employee_id == some id)) = [] := by
      simp [sentinel]
    rw [hsent, List.append_nil, commitChosen_id_sum]
  · rw [if_neg he, commitChosen_id_sum]

/-- C10: at any point of any run (any prefix of processed slots), the
employees chosen for the next slot are pairwise distinct, so each employee
receives at most one record — at most 1.0 assigned hour — for that slot. -/
theorem c10_distinct (isoWeek : ℤ → ℕ) (rows : List EmployeeRow) (prev : List DemandRow)
    (s : DemandRow) :
    ((slotChosen rows (prev.foldl (processSlot isoWeek rows) (initBook rows, [])).1
      (isoWeek s.ts) s).map (fun c => c.emp_id)).Nodup ∧
    ∀ id : ℕ,
      (((slotOutput isoWeek rows
          (prev.foldl (processSlot isoWeek rows) (initBook rows, [])).1 s).2.filter
        (fun r => r.employee_id == some id)).map (fun r => r.assigned_hours)).sum ≤ 1 := by
  have hnd : (((prev.foldl (processSlot isoWeek rows) (initBook rows, [])).1.map
      Prod.fst)).Nodup :=
    foldl_keys_nodup isoWeek rows prev _ (initBook_keys_nodup rows)
  have hidnd := @slotChosen_ids_nodup rows
    (prev.foldl (processSlot isoWeek rows) (initBook rows, [])).1 (isoWeek s.ts) s hnd
  refine ⟨hidnd, ?_⟩
  intro id
  rw [slotOutput_id_sum]
  have hlen : ((slotChosen rows
      (prev.foldl (processSlot isoWeek rows) (initBook rows, [])).1
      (isoWeek s.ts) s).filter (fun c => c.emp_id == id)).length ≤ 1 := by
    rw [filter_emp_eq_count]
    exact List.nodup_iff_count_le_one.1 hidnd id
  exact_mod_cast hlen

/-- C1 witness: the amended weekly-cap theorem applied to a concrete roster
(one employee with cap 40), a concrete one-slot demand table, and the
resulting concrete ledger entry at week 0. -/
theorem c1_witness :
    lookupWeek [((0 : ℕ), (1 : ℚ))] 0 < 40 + 1 ∧
    empWeekSum (sortFinal (runSchedule (fun _ => 0) [⟨0, 0, 1⟩] [⟨0, 1, 40, "flex", 1⟩]).2) 0 0 =
      lookupWeek [((0 : ℕ), (1 : ℚ))] 0 ∧
    lookupWeek [((0 : ℕ), (1 : ℚ))] 0 ≤ ((40 : ℕ) : ℚ) := by
  have h := c1_weekly_cap (fun _ => 0) [⟨0, 0, 1⟩] [⟨0, 1, 40, "flex", 1⟩]
    (by
      intro r hr
      rcases List.mem_singleton.1 hr with rfl
      norm_num)
    ((0 : ℕ), (⟨1, 40, "flex", 1, [(0, 1)], some 0⟩ : EmpInfo))
    (by
      rw [wit_run_eq]
      exact List.mem_singleton.2 rfl)
    0
  exact ⟨h.1, h.2.1, h.2.2 40 (by norm_num)⟩

end WFS
